import Mathlib

/-!
Verification of the portainer-mcp-docker-wrapper repository (Go).

The Go sources are shallowly embedded: Go strings become `List Char`,
HTTP handlers become state-passing functions, environment access becomes
a function from variable names to values (`os.Getenv` returns the empty
string for unset variables, so unset and empty are indistinguishable, as
in Go). Components that the compiled sources do not contain (the message
codec and the pending-request table of the transport bridge) are modelled
from the specification and marked as such in their doc comments.
-/

namespace PortainerWrapper

/-- Go strings, embedded as lists of characters. -/
abbrev Str := List Char

/-! ## HTTP model

A request carries the parts of `*http.Request` the wrapper inspects: the
URL path and the value returned by `r.Header.Get("Authorization")` (the
empty list when the header is absent, as in Go). A response carries the
status code, the `Content-Type` header and the body. Handlers are
state-passing functions so that "the wrapped handler is never invoked"
and "downstream state unchanged" are expressible: the state type is
abstract and a handler may both read and write it. -/

structure Request where
  path : Str
  authHeader : Str
  body : Str
deriving DecidableEq

structure Response where
  status : Nat
  contentType : Str
  body : Str
deriving DecidableEq

/-- A state-passing HTTP handler over downstream state `σ`. -/
def Handler (σ : Type) := Request → σ → Response × σ

/-- Go `http.Error(w, msg, code)`: replies with the given status code,
`Content-Type: text/plain; charset=utf-8`, and the message followed by a
newline. -/
def httpError (msg : Str) (code : Nat) : Response :=
  { status := code
    contentType := "text/plain; charset=utf-8".toList
    body := msg ++ ['\n'] }

/-! ## Auth middleware (src/internal/auth/auth.go) -/

/-- Go `strings.SplitN(s, " ", 2)` restricted to what the middleware
uses: `some (before, after)` when `s` contains a space (split at the
first one), `none` when it does not (in Go the result then has length 1,
which the middleware rejects). -/
def splitN2 : Str → Option (Str × Str)
  | [] => none
  | c :: cs =>
    if c = ' ' then some ([], cs)
    else (splitN2 cs).map (fun p => (c :: p.1, p.2))

def missingAuthBody : Str := "\x7b\"error\":\"missing authorization header\"\x7d".toList

def invalidFormatBody : Str := "\x7b\"error\":\"invalid authorization format\"\x7d".toList

def invalidTokenBody : Str := "\x7b\"error\":\"invalid token\"\x7d".toList

def bearerWord : Str := "Bearer".toList

/-- Embedding of `auth.NewAuthMiddleware`: extract the Authorization
header; reject an empty one; split on the first space and require
exactly two parts with the first equal to `"Bearer"`; require the second
part to equal the expected token; otherwise pass the request to `next`.
Each rejection uses `http.Error` with status 401 and a fixed JSON body. -/
def NewAuthMiddleware {σ : Type} (expectedToken : Str) (next : Handler σ) : Handler σ :=
  fun r s =>
    if r.authHeader = [] then
      (httpError missingAuthBody 401, s)
    else
      match splitN2 r.authHeader with
      | none => (httpError invalidFormatBody 401, s)
      | some (p0, p1) =>
        if p0 ≠ bearerWord then (httpError invalidFormatBody 401, s)
        else if p1 ≠ expectedToken then (httpError invalidTokenBody 401, s)
        else next r s

/-- The rejection response the middleware sends, as a function of the
header alone, one case per rejecting branch of `NewAuthMiddleware`
(the final branch is only reached when the token mismatches). -/
def rejectResponse (expectedToken header : Str) : Response :=
  if header = [] then httpError missingAuthBody 401
  else
    match splitN2 header with
    | none => httpError invalidFormatBody 401
    | some (p0, p1) =>
      if p0 ≠ bearerWord then httpError invalidFormatBody 401
      else httpError invalidTokenBody 401

/-- The acceptance predicate of the middleware, mirroring its branches:
a request is forwarded exactly when this is `true`. -/
def authAllows (expectedToken header : Str) : Bool :=
  if header = [] then false
  else
    match splitN2 header with
    | none => false
    | some (p0, p1) => p0 = bearerWord && p1 = expectedToken

/-! ## Configuration (internal/config/config.go) -/

/-- The configuration record of the wrapper. -/
structure Config where
  PortainerURL : Str
  PortainerAPIToken : Str
  MCPAccessToken : Str
  MCPPort : Int
  MCPToolsFile : Str
  DisableVersionCheck : Bool
  ReadOnlyMode : Bool
  MCPBinaryPath : Str
deriving DecidableEq

/-- The process environment as seen through `os.Getenv`: a total map
from variable names to values, returning the empty string for unset
variables (Go does not distinguish unset from empty). -/
def Env := Str → Str

def isDigit (c : Char) : Bool := 48 ≤ c.toNat && c.toNat ≤ 57

/-- Value of a digit character (codepoint of `'0'` is 48). -/
def digitVal (c : Char) : Nat := c.toNat - 48

/-- Numeric value of a nonempty all-digit string, `none` otherwise. -/
def digitsVal : Str → Option Nat
  | [] => none
  | [c] => if isDigit c then some (digitVal c) else none
  | c :: cs =>
    if isDigit c then (digitsVal cs).map (fun n => digitVal c * 10 ^ cs.length + n)
    else none

/-- Go `strconv.Atoi`: an optional sign followed by at least one digit,
with the value required to fit in a signed 64-bit integer; anything else
is an error (`none`). -/
def atoi (s : Str) : Option Int :=
  match s with
  | [] => none
  | '+' :: rest =>
    (digitsVal rest).bind (fun n => if n ≤ 2 ^ 63 - 1 then some (n : Int) else none)
  | '-' :: rest =>
    (digitsVal rest).bind (fun n => if n ≤ 2 ^ 63 then some (-(n : Int)) else none)
  | _ =>
    (digitsVal s).bind (fun n => if n ≤ 2 ^ 63 - 1 then some (n : Int) else none)

/-- Go `strconv.ParseBool`: accepts exactly these twelve strings. -/
def parseBool (s : Str) : Option Bool :=
  if s ∈ ["1".toList, "t".toList, "T".toList, "TRUE".toList, "true".toList, "True".toList] then
    some true
  else if s ∈ ["0".toList, "f".toList, "F".toList, "FALSE".toList, "false".toList, "False".toList] then
    some false
  else none

/-- Embedding of `config.getEnvOrDefault`. -/
def getEnvOrDefault (env : Env) (key dflt : Str) : Str :=
  if env key ≠ [] then env key else dflt

/-- Embedding of `config.getEnvAsIntOrDefault`. -/
def getEnvAsIntOrDefault (env : Env) (key : Str) (dflt : Int) : Int :=
  if env key ≠ [] then
    match atoi (env key) with
    | some n => n
    | none => dflt
  else dflt

/-- Embedding of `config.getEnvAsBoolOrDefault`. -/
def getEnvAsBoolOrDefault (env : Env) (key : Str) (dflt : Bool) : Bool :=
  if env key ≠ [] then
    match parseBool (env key) with
    | some b => b
    | none => dflt
  else dflt

/-- Name of the `PORTAINER_URL` environment variable. -/
def keyPortainerURL : Str := "PORTAINER_URL".toList

/-- Name of the `PORTAINER_API_TOKEN` environment variable. -/
def keyPortainerAPIToken : Str := "PORTAINER_API_TOKEN".toList

/-- Name of the `MCP_ACCESS_TOKEN` environment variable. -/
def keyMCPAccessToken : Str := "MCP_ACCESS_TOKEN".toList

/-- Name of the `MCP_PORT` environment variable. -/
def keyMCPPort : Str := "MCP_PORT".toList

/-- Name of the `MCP_TOOLS_FILE` environment variable. -/
def keyMCPToolsFile : Str := "MCP_TOOLS_FILE".toList

/-- Name of the `DISABLE_VERSION_CHECK` environment variable. -/
def keyDisableVersionCheck : Str := "DISABLE_VERSION_CHECK".toList

/-- Name of the `READ_ONLY_MODE` environment variable. -/
def keyReadOnlyMode : Str := "READ_ONLY_MODE".toList

/-- Name of the `MCP_BINARY_PATH` environment variable. -/
def keyMCPBinaryPath : Str := "MCP_BINARY_PATH".toList

/-- The configuration record `config.LoadConfig` builds from the
environment before validation, field by field as in the source. -/
def mkConfig (env : Env) : Config :=
  { PortainerURL := getEnvOrDefault env keyPortainerURL "http://portainer:9000".toList
    PortainerAPIToken := env keyPortainerAPIToken
    MCPAccessToken := env keyMCPAccessToken
    MCPPort := getEnvAsIntOrDefault env keyMCPPort 8080
    MCPToolsFile := env keyMCPToolsFile
    DisableVersionCheck := getEnvAsBoolOrDefault env keyDisableVersionCheck false
    ReadOnlyMode := getEnvAsBoolOrDefault env keyReadOnlyMode false
    MCPBinaryPath := getEnvOrDefault env keyMCPBinaryPath "/app/portainer-mcp".toList }

/-- Embedding of `config.LoadConfig`: build the record from the
environment with the fixed defaults, then fail exactly when one of the
two required tokens is empty. -/
def LoadConfig (env : Env) : Except Str Config :=
  if (mkConfig env).PortainerAPIToken = [] then .error "PORTAINER_API_TOKEN is required".toList
  else if (mkConfig env).MCPAccessToken = [] then .error "MCP_ACCESS_TOKEN is required".toList
  else .ok (mkConfig env)

/-! ## Subprocess argument vector (internal/bridge/bridge.go) -/

/-- The argument vector built by both `CreateMCPServer` and
`GetPortainerCommand`: the base pair of flags, then each optional flag
appended under its condition, in source order. -/
def buildArgs (cfg : Config) : List Str :=
  let args := ["--server".toList, cfg.PortainerURL,
               "--api-token".toList, cfg.PortainerAPIToken]
  let args := if cfg.MCPToolsFile ≠ [] then
      args ++ ["--tools-file".toList, cfg.MCPToolsFile] else args
  let args := if cfg.DisableVersionCheck then
      args ++ ["--disable-version-check".toList] else args
  let args := if cfg.ReadOnlyMode then
      args ++ ["--read-only".toList] else args
  args

/-- The argument vector as the specification words it: the fixed
four-element base, followed by the tools-file pair iff the option is
non-empty, then each flag iff it is set. Stated from the spec, to be
compared with `buildArgs`. -/
def specArgs (cfg : Config) : List Str :=
  ["--server".toList, cfg.PortainerURL, "--api-token".toList, cfg.PortainerAPIToken]
    ++ (if cfg.MCPToolsFile ≠ [] then ["--tools-file".toList, cfg.MCPToolsFile] else [])
    ++ (if cfg.DisableVersionCheck then ["--disable-version-check".toList] else [])
    ++ (if cfg.ReadOnlyMode then ["--read-only".toList] else [])

/-- The `mcp.Implementation` record passed to `mcp.NewServer`. -/
structure Implementation where
  name : Str
  version : Str
deriving DecidableEq

/-- What `bridge.CreateMCPServer` produces: it builds the argument
vector, constructs the command (`exec.CommandContext` only constructs —
the code never calls `Start`, and discards the command with `_ = cmd`),
and returns a fresh `mcp.Server` that has no connection to the
subprocess. `started` records whether the subprocess was started and
`relayedLines` the lines written to its stdin; in this code both are
trivial because no process interaction is ever performed. -/
structure CreateResult where
  cmdPath : Str
  cmdArgs : List Str
  started : Bool
  relayedLines : List Str
  server : Implementation
deriving DecidableEq

/-- Embedding of `bridge.CreateMCPServer`. The Go function returns
`(server, nil)` unconditionally: the command is constructed and dropped,
no validation of the binary path occurs, and the error result is always
`nil` (`none`). -/
def CreateMCPServer (cfg : Config) : CreateResult × Option Str :=
  ({ cmdPath := cfg.MCPBinaryPath
     cmdArgs := buildArgs cfg
     started := false
     relayedLines := []
     server := { name := "portainer-mcp-wrapper".toList, version := "1.0.0".toList } },
   none)

/-- Embedding of the `getServer` closure in `cmd/wrapper/main.go`: it is
called with the incoming HTTP request of each new session but ignores it
and calls `CreateMCPServer` on the configuration alone. -/
def getServer (cfg : Config) (req : Request) : CreateResult × Option Str :=
  CreateMCPServer cfg

/-! ## Routing (cmd/wrapper/main.go) -/

def healthBody : Str :=
  "\x7b\"status\":\"healthy\",\"service\":\"portainer-mcp-wrapper\",\"version\":\"1.0.0\"\x7d".toList

/-- Embedding of `healthCheckHandler`: always status 200 with the fixed
JSON body, touching no downstream state. -/
def healthCheckHandler {σ : Type} : Handler σ :=
  fun _ s => ({ status := 200, contentType := "application/json".toList, body := healthBody }, s)

/-- Embedding of the `http.ServeMux` set up in `main`: the pattern
`"/health"` matches exactly that path and is served by
`healthCheckHandler` with no middleware; every other path falls to the
pattern `"/"`, served by the MCP handler wrapped in
`NewAuthMiddleware cfg.MCPAccessToken`. -/
def serveMux {σ : Type} (cfg : Config) (mcpHandler : Handler σ) : Handler σ :=
  fun r s =>
    if r.path = "/health".toList then healthCheckHandler r s
    else NewAuthMiddleware cfg.MCPAccessToken mcpHandler r s

/-- Decides whether `pat` occurs as a contiguous substring of `s`. -/
def hasSub (pat : Str) : Str → Bool
  | [] => pat.isEmpty
  | c :: t => pat.isPrefixOf (c :: t) || hasSub pat t

/-! ## Lemmas about `splitN2` and the auth decision -/

theorem splitN2_sound : ∀ {s p q : Str}, splitN2 s = some (p, q) → s = p ++ ' ' :: q ∧ ' ' ∉ p := by
  intro s
  induction s with
  | nil => intro p q h; simp [splitN2] at h
  | cons c cs ih =>
    intro p q h
    simp only [splitN2] at h
    by_cases hc : c = ' '
    · rw [if_pos hc] at h
      simp only [Option.some.injEq, Prod.mk.injEq] at h
      obtain ⟨hp, hq⟩ := h
      subst hp; subst hq
      exact ⟨by simp [hc], by simp⟩
    · rw [if_neg hc] at h
      cases ho : splitN2 cs with
      | none => rw [ho] at h; simp at h
      | some pq =>
        obtain ⟨p', q'⟩ := pq
        rw [ho] at h
        simp only [Option.map_some', Option.some.injEq, Prod.mk.injEq] at h
        obtain ⟨hp, hq⟩ := h
        obtain ⟨hs, hnotin⟩ := ih ho
        subst hp; subst hq
        constructor
        · rw [hs]; rfl
        · intro hmem
          rcases List.mem_cons.mp hmem with h' | h'
          · exact hc h'.symm
          · exact hnotin h'

theorem splitN2_append : ∀ (p q : Str), ' ' ∉ p → splitN2 (p ++ ' ' :: q) = some (p, q) := by
  intro p
  induction p with
  | nil => intro q hp; simp [splitN2]
  | cons c cs ih =>
    intro q hp
    have hc : c ≠ ' ' := fun h => hp (by simp [h])
    have hcs : ' ' ∉ cs := fun h => hp (by simp [h])
    simp only [List.cons_append, splitN2, List.append_eq]
    rw [if_neg hc, ih q hcs]
    rfl

theorem authAllows_iff (expectedToken header : Str) :
    authAllows expectedToken header = true ↔ header = "Bearer ".toList ++ expectedToken := by
  have hx : "Bearer ".toList = bearerWord ++ [' '] := rfl
  have hbw : "Bearer ".toList ++ expectedToken = bearerWord ++ ' ' :: expectedToken := by
    rw [hx, List.append_assoc]; rfl
  constructor
  · intro h
    unfold authAllows at h
    by_cases h0 : header = []
    · rw [if_pos h0] at h; simp at h
    · rw [if_neg h0] at h
      cases hs : splitN2 header with
      | none => rw [hs] at h; simp at h
      | some pq =>
        obtain ⟨p0, p1⟩ := pq
        rw [hs] at h
        simp only [Bool.and_eq_true, decide_eq_true_eq] at h
        obtain ⟨hp0, hp1⟩ := h
        obtain ⟨hdr, _⟩ := splitN2_sound hs
        rw [hbw, hdr, hp0, hp1]
  · intro h
    have hnosp : ' ' ∉ bearerWord := by decide
    have hsplit : splitN2 header = some (bearerWord, expectedToken) := by
      rw [h, hbw]; exact splitN2_append bearerWord expectedToken hnosp
    have h0 : header ≠ [] := by rw [h, hbw]; simp
    unfold authAllows
    rw [if_neg h0, hsplit]
    simp

/-- Characterization of the middleware: it either forwards the request
to `next` or replies with the rejection response determined by the
header alone, according to `authAllows`. -/
theorem NewAuthMiddleware_char {σ : Type} (expectedToken : Str) (r : Request)
    (next : Handler σ) (s : σ) :
    NewAuthMiddleware expectedToken next r s
      = if authAllows expectedToken r.authHeader = true then next r s
        else (rejectResponse expectedToken r.authHeader, s) := by
  simp only [NewAuthMiddleware, rejectResponse, authAllows]
  by_cases h0 : r.authHeader = []
  · simp [h0]
  · simp only [if_neg h0]
    cases hs : splitN2 r.authHeader with
    | none => simp
    | some pq =>
      obtain ⟨p0, p1⟩ := pq
      by_cases hb : p0 = bearerWord
      · by_cases ht : p1 = expectedToken
        · simp [hb, ht]
        · simp [hb, ht]
      · simp [hb]

theorem rejectResponse_status (expectedToken header : Str) :
    (rejectResponse expectedToken header).status = 401 := by
  unfold rejectResponse
  by_cases h0 : header = []
  · simp [h0, httpError]
  · simp only [if_neg h0]
    cases splitN2 header with
    | none => rfl
    | some pq =>
      obtain ⟨p0, p1⟩ := pq
      by_cases hb : p0 = bearerWord <;> simp [hb, httpError]

theorem rejectResponse_hasErrorField (expectedToken header : Str) :
    hasSub "\"error\":".toList (rejectResponse expectedToken header).body = true := by
  unfold rejectResponse
  by_cases h0 : header = []
  · rw [if_pos h0]; decide
  · rw [if_neg h0]
    cases splitN2 header with
    | none => decide
    | some pq =>
      obtain ⟨p0, p1⟩ := pq
      by_cases hb : p0 = bearerWord
      · simp only [hb]; decide
      · simp only [if_pos, if_neg, hb]
        rw [if_pos (by simp [hb])]
        decide

/-! ## Claim theorems: authentication and routing -/

/-- C1: the middleware passes a request to the wrapped handler if the
Authorization header equals exactly `"Bearer "` followed by the
configured token, and on any other header value it responds 401 without
invoking the wrapped handler (the result is independent of `next` and
the downstream state is unchanged); the scheme keyword is matched by
exact, case-sensitive equality. -/
theorem auth_forwards_iff_exact_bearer {σ : Type} (expectedToken : Str)
    (r : Request) (next : Handler σ) (s : σ) :
    (r.authHeader = "Bearer ".toList ++ expectedToken →
        NewAuthMiddleware expectedToken next r s = next r s)
    ∧ (r.authHeader ≠ "Bearer ".toList ++ expectedToken →
        (NewAuthMiddleware expectedToken next r s).1.status = 401
        ∧ (NewAuthMiddleware expectedToken next r s).2 = s
        ∧ ∀ next' : Handler σ,
            NewAuthMiddleware expectedToken next r s
              = NewAuthMiddleware expectedToken next' r s) := by
  constructor
  · intro h
    rw [NewAuthMiddleware_char, if_pos ((authAllows_iff expectedToken r.authHeader).mpr h)]
  · intro h
    have hne : ¬ authAllows expectedToken r.authHeader = true := fun hb =>
      h ((authAllows_iff expectedToken r.authHeader).mp hb)
    refine ⟨?_, ?_, fun next' => ?_⟩
    · rw [NewAuthMiddleware_char, if_neg hne]
      exact rejectResponse_status expectedToken r.authHeader
    · rw [NewAuthMiddleware_char, if_neg hne]
    · rw [NewAuthMiddleware_char, if_neg hne, NewAuthMiddleware_char, if_neg hne]

/-- Witness for C1 at concrete inputs: with token `"tok"`, the exact
header `"Bearer tok"` is forwarded, while the lowercase-scheme header
`"bearer tok"` yields a 401. -/
theorem auth_forwards_iff_exact_bearer_witness :
    NewAuthMiddleware (σ := Nat) "tok".toList (fun _ s => (httpError [] 200, s + 1))
        { path := "/".toList, authHeader := "Bearer tok".toList, body := [] } 0
      = (httpError [] 200, 1)
    ∧ (NewAuthMiddleware (σ := Nat) "tok".toList (fun _ s => (httpError [] 200, s + 1))
        { path := "/".toList, authHeader := "bearer tok".toList, body := [] } 0).1.status = 401 :=
  ⟨(auth_forwards_iff_exact_bearer "tok".toList
      { path := "/".toList, authHeader := "Bearer tok".toList, body := [] }
      (fun _ s => (httpError [] 200, s + 1)) 0).1 (by decide),
   ((auth_forwards_iff_exact_bearer "tok".toList
      { path := "/".toList, authHeader := "bearer tok".toList, body := [] }
      (fun _ s => (httpError [] 200, s + 1)) 0).2 (by decide)).1⟩

/-- C2: on any request the middleware rejects (missing, malformed or
wrong-token Authorization header), the response has status 401 and a
JSON body containing an `"error"` field, the downstream state is
returned unchanged, and the result does not depend on the wrapped
handler — so the wrapped handler and the subprocess are never touched. -/
theorem auth_failure_unauthorized_atomic {σ : Type} (expectedToken : Str)
    (r : Request) (next : Handler σ) (s : σ)
    (h : authAllows expectedToken r.authHeader = false) :
    (NewAuthMiddleware expectedToken next r s).1.status = 401
    ∧ hasSub "\"error\":".toList (NewAuthMiddleware expectedToken next r s).1.body = true
    ∧ (NewAuthMiddleware expectedToken next r s).2 = s
    ∧ ∀ next' : Handler σ,
        NewAuthMiddleware expectedToken next r s
          = NewAuthMiddleware expectedToken next' r s := by
  have hne : ¬ authAllows expectedToken r.authHeader = true := by simp [h]
  refine ⟨?_, ?_, ?_, fun next' => ?_⟩
  · rw [NewAuthMiddleware_char, if_neg hne]
    exact rejectResponse_status expectedToken r.authHeader
  · rw [NewAuthMiddleware_char, if_neg hne]
    exact rejectResponse_hasErrorField expectedToken r.authHeader
  · rw [NewAuthMiddleware_char, if_neg hne]
  · rw [NewAuthMiddleware_char, if_neg hne, NewAuthMiddleware_char, if_neg hne]

/-- Witness for C2 at a concrete input: a request with no Authorization
header gets status 401, a body containing an error field, and unchanged
state. -/
theorem auth_failure_unauthorized_atomic_witness :
    (NewAuthMiddleware (σ := Nat) "tok".toList (fun _ s => (httpError [] 200, s + 1))
        { path := "/".toList, authHeader := [], body := [] } 7).1.status = 401
    ∧ hasSub "\"error\":".toList
        (NewAuthMiddleware (σ := Nat) "tok".toList (fun _ s => (httpError [] 200, s + 1))
          { path := "/".toList, authHeader := [], body := [] } 7).1.body = true
    ∧ (NewAuthMiddleware (σ := Nat) "tok".toList (fun _ s => (httpError [] 200, s + 1))
        { path := "/".toList, authHeader := [], body := [] } 7).2 = 7 :=
  have h := auth_failure_unauthorized_atomic "tok".toList
    { path := "/".toList, authHeader := [], body := [] }
    (fun _ s => (httpError [] 200, s + 1)) 7 (by decide)
  ⟨h.1, h.2.1, h.2.2.1⟩

/-- C3: any request whose path is `/health` is answered by the health
handler with status 200 and the fixed JSON body, regardless of the
Authorization header, of the MCP handler, and of the downstream state,
which is returned unchanged. -/
theorem health_fixed_response {σ : Type} (cfg : Config) (mcpHandler : Handler σ)
    (r : Request) (s : σ) (h : r.path = "/health".toList) :
    serveMux cfg mcpHandler r s
      = ({ status := 200, contentType := "application/json".toList, body := healthBody }, s) := by
  unfold serveMux
  rw [if_pos h]
  rfl

/-- Witness for C3 at a concrete input: a credential-free request to
`/health` with an arbitrary downstream state. -/
theorem health_fixed_response_witness :
    serveMux (σ := Nat)
        { PortainerURL := [], PortainerAPIToken := "p".toList, MCPAccessToken := "m".toList,
          MCPPort := 8080, MCPToolsFile := [], DisableVersionCheck := false,
          ReadOnlyMode := false, MCPBinaryPath := [] }
        (fun _ s => (httpError [] 200, s + 1))
        { path := "/health".toList, authHeader := [], body := [] } 41
      = ({ status := 200, contentType := "application/json".toList, body := healthBody }, 41) :=
  health_fixed_response
    { PortainerURL := [], PortainerAPIToken := "p".toList, MCPAccessToken := "m".toList,
      MCPPort := 8080, MCPToolsFile := [], DisableVersionCheck := false,
      ReadOnlyMode := false, MCPBinaryPath := [] }
    (fun _ s => (httpError [] 200, s + 1))
    { path := "/health".toList, authHeader := [], body := [] } 41 (by decide)

/-- C10: every request whose path is not exactly `/health` is served by
the authentication middleware wrapped around the MCP handler — the mux
exposes no other unauthenticated route. -/
theorem non_health_routed_through_auth {σ : Type} (cfg : Config) (mcpHandler : Handler σ)
    (r : Request) (s : σ) (h : r.path ≠ "/health".toList) :
    serveMux cfg mcpHandler r s = NewAuthMiddleware cfg.MCPAccessToken mcpHandler r s := by
  unfold serveMux
  rw [if_neg h]

/-- Witness for C10 at a concrete input: a request to the root path is
served through the middleware. -/
theorem non_health_routed_through_auth_witness :
    serveMux (σ := Nat)
        { PortainerURL := [], PortainerAPIToken := "p".toList, MCPAccessToken := "m".toList,
          MCPPort := 8080, MCPToolsFile := [], DisableVersionCheck := false,
          ReadOnlyMode := false, MCPBinaryPath := [] }
        (fun _ s => (httpError [] 200, s + 1))
        { path := "/".toList, authHeader := [], body := [] } 0
      = NewAuthMiddleware "m".toList (fun _ s => (httpError [] 200, s + 1))
        { path := "/".toList, authHeader := [], body := [] } 0 :=
  non_health_routed_through_auth
    { PortainerURL := [], PortainerAPIToken := "p".toList, MCPAccessToken := "m".toList,
      MCPPort := 8080, MCPToolsFile := [], DisableVersionCheck := false,
      ReadOnlyMode := false, MCPBinaryPath := [] }
    (fun _ s => (httpError [] 200, s + 1))
    { path := "/".toList, authHeader := [], body := [] } 0 (by decide)

/-! ## Claim theorems: subprocess argument vector and server creation -/

/-- C4: the argument vector is exactly the base
`["--server", URL, "--api-token", token]` followed by the tools-file
pair iff that option is non-empty, the version-check flag iff set, and
the read-only flag iff set, in that order; and since the per-session
server factory ignores the request, two sessions with the same
configuration and different requests get identical argument vectors —
no request data can reach the vector. -/
theorem argument_vector_deterministic (cfg : Config) :
    buildArgs cfg = specArgs cfg
    ∧ (∀ r1 r2 : Request, getServer cfg r1 = getServer cfg r2)
    ∧ (∀ r : Request, (getServer cfg r).1.cmdArgs = buildArgs cfg) := by
  refine ⟨?_, fun r1 r2 => rfl, fun r => rfl⟩
  unfold buildArgs specArgs
  by_cases h1 : cfg.MCPToolsFile ≠ [] <;>
    by_cases h2 : cfg.DisableVersionCheck <;>
      by_cases h3 : cfg.ReadOnlyMode <;>
        simp [h1, h2, h3]

/-- C5 evaluation: creating the per-session MCP server never starts the
configured executable and never relays a line to it — `CreateMCPServer`
constructs the command, discards it (`_ = cmd`), and returns a server
with no connection to the subprocess, for every configuration. -/
theorem createMCPServer_never_starts_subprocess (cfg : Config) :
    (CreateMCPServer cfg).1.started = false
    ∧ (CreateMCPServer cfg).1.relayedLines = [] :=
  ⟨rfl, rfl⟩

/-- C6 evaluation: `CreateMCPServer` returns a server and a `nil` error
for every configuration — including one whose binary path is empty — so
it performs no validation of the executable path and can never fail
with a launch error. -/
theorem createMCPServer_never_fails (cfg : Config) :
    (CreateMCPServer cfg).2 = none
    ∧ (CreateMCPServer { cfg with MCPBinaryPath := [] }).2 = none :=
  ⟨rfl, rfl⟩

/-! ## Claim theorem: configuration loading -/

/-- C9: `LoadConfig` fails exactly when `PORTAINER_API_TOKEN` or
`MCP_ACCESS_TOKEN` is unset/empty; whenever it succeeds, an unparsable
(or unset) `MCP_PORT`, `DISABLE_VERSION_CHECK` or `READ_ONLY_MODE`
value is silently replaced by its fixed default. -/
theorem loadConfig_error_iff (env : Env) :
    ((LoadConfig env).isOk = false ↔
      (env keyPortainerAPIToken = [] ∨ env keyMCPAccessToken = []))
    ∧ ∀ cfg : Config, LoadConfig env = .ok cfg →
        (atoi (env keyMCPPort) = none → cfg.MCPPort = 8080)
        ∧ (parseBool (env keyDisableVersionCheck) = none → cfg.DisableVersionCheck = false)
        ∧ (parseBool (env keyReadOnlyMode) = none → cfg.ReadOnlyMode = false) := by
  have hp : (mkConfig env).PortainerAPIToken = env keyPortainerAPIToken := rfl
  have hm : (mkConfig env).MCPAccessToken = env keyMCPAccessToken := rfl
  constructor
  · unfold LoadConfig
    rw [hp, hm]
    by_cases h1 : env keyPortainerAPIToken = []
    · rw [if_pos h1]
      simp [Except.isOk, Except.toBool, h1]
    · rw [if_neg h1]
      by_cases h2 : env keyMCPAccessToken = []
      · rw [if_pos h2]
        simp [Except.isOk, Except.toBool, h1, h2]
      · rw [if_neg h2]
        simp [Except.isOk, Except.toBool, h1, h2]
  · intro cfg hok
    unfold LoadConfig at hok
    rw [hp, hm] at hok
    by_cases h1 : env keyPortainerAPIToken = []
    · rw [if_pos h1] at hok; exact absurd hok (by simp)
    · rw [if_neg h1] at hok
      by_cases h2 : env keyMCPAccessToken = []
      · rw [if_pos h2] at hok; exact absurd hok (by simp)
      · rw [if_neg h2] at hok
        simp only [Except.ok.injEq] at hok
        refine ⟨fun hport => ?_, fun hdvc => ?_, fun hro => ?_⟩
        · rw [← hok]
          show getEnvAsIntOrDefault env keyMCPPort 8080 = 8080
          unfold getEnvAsIntOrDefault
          by_cases he : env keyMCPPort = []
          · simp [he]
          · simp [he, hport]
        · rw [← hok]
          show getEnvAsBoolOrDefault env keyDisableVersionCheck false = false
          unfold getEnvAsBoolOrDefault
          by_cases he : env keyDisableVersionCheck = []
          · simp [he]
          · simp [he, hdvc]
        · rw [← hok]
          show getEnvAsBoolOrDefault env keyReadOnlyMode false = false
          unfold getEnvAsBoolOrDefault
          by_cases he : env keyReadOnlyMode = []
          · simp [he]
          · simp [he, hro]

/-- A concrete environment for the C9 witness: both required tokens
set, `MCP_PORT` set to a non-integer, the boolean flags unset. -/
def envW : Env := fun k =>
  if k = keyPortainerAPIToken then "ptr_secret".toList
  else if k = keyMCPAccessToken then "wrapper_secret".toList
  else if k = keyMCPPort then "not-a-number".toList
  else []

/-- The configuration `LoadConfig` produces on `envW`. -/
def cfgW : Config :=
  { PortainerURL := "http://portainer:9000".toList
    PortainerAPIToken := "ptr_secret".toList
    MCPAccessToken := "wrapper_secret".toList
    MCPPort := 8080
    MCPToolsFile := []
    DisableVersionCheck := false
    ReadOnlyMode := false
    MCPBinaryPath := "/app/portainer-mcp".toList }

/-- A concrete environment missing the Portainer token, for the failure
direction of the C9 witness. -/
def envBad : Env := fun k =>
  if k = keyMCPAccessToken then "wrapper_secret".toList else []

/-- Witness for C9 at concrete inputs: on `envW` loading succeeds and
the unparsable port is replaced by 8080; on `envBad` loading fails. -/
theorem loadConfig_error_iff_witness :
    LoadConfig envW = .ok cfgW
    ∧ cfgW.MCPPort = 8080
    ∧ cfgW.DisableVersionCheck = false
    ∧ (LoadConfig envBad).isOk = false :=
  have hok : LoadConfig envW = .ok cfgW := by rfl
  ⟨hok,
   ((loadConfig_error_iff envW).2 cfgW hok).1 (by decide),
   (((loadConfig_error_iff envW).2 cfgW hok).2).1 (by decide),
   ((loadConfig_error_iff envBad).1).mpr (Or.inl (by decide))⟩

/-! ## Message codec (Modelled from the spec)

The compiled sources contain no message codec: the transport bridge in
`internal/bridge/bridge.go` is a stub (the command is built and
discarded), so the codec of specification section 4.2 is modelled here
from the specification's words. Messages are structured JSON values;
numeric values are modelled as integers (the non-finite values the spec
excludes from valid messages do not arise). `encode` serializes to
canonical single-line JSON — no inter-token whitespace, the five
standard single-character escapes — and appends exactly one newline;
`decode` parses one such line back. -/

/-- Modelled from the spec: a structured message — a JSON value as
carried by one line of the wire protocol. -/
inductive JValue where
  | null : JValue
  | bool : Bool → JValue
  | num : Int → JValue
  | str : Str → JValue
  | arr : List JValue → JValue
  | obj : List (Str × JValue) → JValue

/-- Escape one character for a JSON string literal: the two mandatory
escapes (quote, backslash) and the three whitespace controls that would
otherwise break the single-line invariant. -/
def escChar (c : Char) : Str :=
  if c = '"' then ['\\', '"']
  else if c = '\\' then ['\\', '\\']
  else if c = '\n' then ['\\', 'n']
  else if c = '\r' then ['\\', 'r']
  else if c = '\t' then ['\\', 't']
  else [c]

/-- Escape a whole string. -/
def escape : Str → Str
  | [] => []
  | c :: cs => escChar c ++ escape cs

/-- Reverse of `escChar` on the character after a backslash. -/
def unescChar (c : Char) : Option Char :=
  if c = '"' then some '"'
  else if c = '\\' then some '\\'
  else if c = 'n' then some '\n'
  else if c = 'r' then some '\r'
  else if c = 't' then some '\t'
  else none

/-- Parse the body of a JSON string literal (after the opening quote)
up to and including the closing quote, returning the unescaped content
and the remaining input. -/
def parseStrBody : Str → Option (Str × Str)
  | [] => none
  | c :: rest =>
    if c = '"' then some ([], rest)
    else if c = '\\' then
      match rest with
      | [] => none
      | e :: rest' =>
        match unescChar e with
        | none => none
        | some u => (parseStrBody rest').map (fun p => (u :: p.1, p.2))
    else (parseStrBody rest).map (fun p => (c :: p.1, p.2))

/-- The decimal digit character for a value below ten. -/
def digitChar (n : Nat) : Char :=
  if n = 0 then '0' else if n = 1 then '1' else if n = 2 then '2'
  else if n = 3 then '3' else if n = 4 then '4' else if n = 5 then '5'
  else if n = 6 then '6' else if n = 7 then '7' else if n = 8 then '8'
  else '9'

/-- Decimal digits of a natural number, most significant first. -/
def natDigits (n : Nat) : Str :=
  if h : n < 10 then [digitChar n]
  else natDigits (n / 10) ++ [digitChar (n % 10)]
termination_by n
decreasing_by
  exact Nat.div_lt_self (by omega) (by omega)

/-- Decimal rendering of an integer. -/
def intChars (n : Int) : Str :=
  if n < 0 then '-' :: natDigits n.natAbs else natDigits n.toNat

/-- Numeric value of a digit string, accumulator style. -/
def digitsToNat : Nat → Str → Nat
  | acc, [] => acc
  | acc, c :: cs => digitsToNat (acc * 10 + digitVal c) cs

/-- Split off the longest leading run of digits. -/
def takeDigits : Str → (Str × Str)
  | [] => ([], [])
  | c :: cs =>
    if isDigit c then
      let p := takeDigits cs
      (c :: p.1, p.2)
    else ([], c :: cs)

/-- Parse a JSON number (optional minus sign, then digits). -/
def parseNum : Str → Option (Int × Str)
  | [] => none
  | c :: cs =>
    if c = '-' then
      let p := takeDigits cs
      if p.1 = [] then none else some (-(digitsToNat 0 p.1 : Int), p.2)
    else
      let p := takeDigits (c :: cs)
      if p.1 = [] then none else some ((digitsToNat 0 p.1 : Int), p.2)

mutual

/-- Serialize a JSON value to canonical single-line JSON. -/
def printVal : JValue → Str
  | .num n => intChars n
  | .str s => '"' :: escape s ++ ['"']
  | .arr [] => ['[', ']']
  | .arr (x :: xs) => '[' :: (printVal x ++ printItems xs) ++ [']']
  | .obj [] => ['\x7b', '\x7d']
  | .obj (f :: fs) => '\x7b' :: (printKV f ++ printFields fs) ++ ['\x7d']
  | .null => ['n', 'u', 'l', 'l']
  | .bool b => if b then ['t', 'r', 'u', 'e'] else ['f', 'a', 'l', 's', 'e']

/-- Serialize the remaining elements of a nonempty array, each preceded
by a comma. -/
def printItems : List JValue → Str
  | [] => []
  | x :: xs => ',' :: (printVal x ++ printItems xs)

/-- Serialize one object member as `"key":value`. -/
def printKV : Str × JValue → Str
  | (k, v) => '"' :: escape k ++ '"' :: ':' :: printVal v

/-- Serialize the remaining members of a nonempty object, each preceded
by a comma. -/
def printFields : List (Str × JValue) → Str
  | [] => []
  | f :: fs => ',' :: (printKV f ++ printFields fs)

end

/-- Matches when a character can start a serialized JSON value. -/
def isValStart (c : Char) : Bool :=
  c = 'n' || c = 't' || c = 'f' || c = '"' || c = '[' || c = '\x7b' || c = '-' || isDigit c

/-- Consume an expected literal tail: `some rest` iff the input is the
pattern followed by `rest`. -/
def dropLit : Str → Str → Option Str
  | [], s => some s
  | _ :: _, [] => none
  | p :: ps, c :: cs => if c = p then dropLit ps cs else none

/-- Holds (as `true`) when the input does not begin with a digit, so a
preceding number cannot greedily consume into it. -/
def headNonDigit : Str → Bool
  | [] => true
  | c :: _ => !isDigit c

mutual

/-- Parse one canonical JSON value from the front of the input. The
fuel argument bounds the recursion depth; `decode` supplies one more
than the line length, which suffices for every line `encode` emits. -/
def parseVal : Nat → Str → Option (JValue × Str)
  | 0, _ => none
  | Nat.succ fuel, s =>
    match s with
    | [] => none
    | c :: rest =>
      if c = 'n' then (dropLit ['u', 'l', 'l'] rest).map (fun r => (JValue.null, r))
      else if c = 't' then (dropLit ['r', 'u', 'e'] rest).map (fun r => (JValue.bool true, r))
      else if c = 'f' then (dropLit ['a', 'l', 's', 'e'] rest).map (fun r => (JValue.bool false, r))
      else if c = '"' then (parseStrBody rest).map (fun p => (JValue.str p.1, p.2))
      else if c = '[' then
        match rest with
        | [] => none
        | d :: r2 =>
          if d = ']' then some (JValue.arr [], r2)
          else (parseItems fuel (d :: r2)).map (fun p => (JValue.arr p.1, p.2))
      else if c = '\x7b' then
        match rest with
        | [] => none
        | d :: r2 =>
          if d = '\x7d' then some (JValue.obj [], r2)
          else (parseFields fuel (d :: r2)).map (fun p => (JValue.obj p.1, p.2))
      else if c = '-' || isDigit c then
        (parseNum (c :: rest)).map (fun p => (JValue.num p.1, p.2))
      else none

/-- Parse the elements of a nonempty array after the opening bracket,
up to and including the closing bracket. -/
def parseItems : Nat → Str → Option (List JValue × Str)
  | 0, _ => none
  | Nat.succ fuel, s =>
    match parseVal fuel s with
    | none => none
    | some (v, r) =>
      match r with
      | [] => none
      | d :: r2 =>
        if d = ',' then (parseItems fuel r2).map (fun p => (v :: p.1, p.2))
        else if d = ']' then some ([v], r2)
        else none

/-- Parse the members of a nonempty object after the opening brace, up
to and including the closing brace. -/
def parseFields : Nat → Str → Option (List (Str × JValue) × Str)
  | 0, _ => none
  | Nat.succ fuel, s =>
    match s with
    | [] => none
    | c :: rest =>
      if c = '"' then
        match parseStrBody rest with
        | none => none
        | some (k, r) =>
          match r with
          | [] => none
          | d :: r2 =>
            if d = ':' then
              match parseVal fuel r2 with
              | none => none
              | some (v, r3) =>
                match r3 with
                | [] => none
                | e :: r4 =>
                  if e = ',' then (parseFields fuel r4).map (fun p => ((k, v) :: p.1, p.2))
                  else if e = '\x7d' then some ([(k, v)], r4)
                  else none
            else none
      else none

end

mutual

/-- Fuel sufficient for `parseVal` on the serialization of a value. -/
def needed : JValue → Nat
  | .arr (x :: xs) => 1 + neededItems x xs
  | .obj (f :: fs) => 1 + neededFields f fs
  | _ => 1
termination_by v => sizeOf v

/-- Fuel sufficient for `parseItems` on serialized array elements. -/
def neededItems : JValue → List JValue → Nat
  | x, [] => 1 + needed x
  | x, y :: ys => 1 + needed x + neededItems y ys
termination_by x xs => 1 + sizeOf x + sizeOf xs

/-- Fuel sufficient for `parseFields` on serialized object members. -/
def neededFields : Str × JValue → List (Str × JValue) → Nat
  | (_, v), [] => 1 + needed v
  | (_, v), g :: gs => 1 + needed v + neededFields g gs
termination_by f fs => 1 + sizeOf f + sizeOf fs

end

/-- Modelled from the spec: `encode` — canonical single-line JSON with
exactly one newline terminator appended. With integer-valued numbers no
unencodable value exists, so encoding is total. -/
def encode (m : JValue) : Str :=
  printVal m ++ ['\n']

/-- Strip the one trailing newline terminator of a wire line, when
present. -/
def stripNewline (bs : Str) : Str :=
  if bs.getLast? = some '\n' then bs.dropLast else bs

/-- Modelled from the spec: `decode` — strips the line's newline
terminator if present, parses one JSON value, and fails on malformed
input or trailing bytes. -/
def decode (bs : Str) : Except Str JValue :=
  match parseVal ((stripNewline bs).length + 1) (stripNewline bs) with
  | some (v, []) => .ok v
  | some (_, _ :: _) => .error "trailing data after value".toList
  | none => .error "malformed JSON line".toList

/-! ## Codec lemmas: strings -/

theorem parseStrBody_quote (rest : Str) : parseStrBody ('"' :: rest) = some ([], rest) := by
  conv_lhs => rw [parseStrBody.eq_def]
  simp

theorem parseStrBody_esc (e u : Char) (rest : Str) (hu : unescChar e = some u) :
    parseStrBody ('\\' :: e :: rest) = (parseStrBody rest).map (fun p => (u :: p.1, p.2)) := by
  conv_lhs => rw [parseStrBody.eq_def]
  simp [hu]

theorem parseStrBody_other (c : Char) (rest : Str) (h1 : c ≠ '"') (h2 : c ≠ '\\') :
    parseStrBody (c :: rest) = (parseStrBody rest).map (fun p => (c :: p.1, p.2)) := by
  conv_lhs => rw [parseStrBody.eq_def]
  simp [h1, h2]

theorem parseStrBody_escape : ∀ (s rest : Str), parseStrBody (escape s ++ '"' :: rest) = some (s, rest) := by
  intro s
  induction s with
  | nil =>
    intro rest
    simp only [escape, List.nil_append]
    exact parseStrBody_quote rest
  | cons c cs ih =>
    intro rest
    by_cases h1 : c = '"'
    · subst h1
      have hesc : escape ('"' :: cs) ++ '"' :: rest = '\\' :: '"' :: (escape cs ++ '"' :: rest) := by
        simp [escape, escChar]
      rw [hesc, parseStrBody_esc '"' '"' (escape cs ++ '"' :: rest) (by decide), ih rest]
      rfl
    · by_cases h2 : c = '\\'
      · subst h2
        have hesc : escape ('\\' :: cs) ++ '"' :: rest
            = '\\' :: '\\' :: (escape cs ++ '"' :: rest) := by
          simp [escape, escChar]
        rw [hesc, parseStrBody_esc '\\' '\\' (escape cs ++ '"' :: rest) (by decide), ih rest]
        rfl
      · by_cases h3 : c = '\n'
        · subst h3
          have hesc : escape ('\n' :: cs) ++ '"' :: rest
              = '\\' :: 'n' :: (escape cs ++ '"' :: rest) := by
            simp [escape, escChar]
          rw [hesc, parseStrBody_esc 'n' '\n' (escape cs ++ '"' :: rest) (by decide), ih rest]
          rfl
        · by_cases h4 : c = '\r'
          · subst h4
            have hesc : escape ('\r' :: cs) ++ '"' :: rest
                = '\\' :: 'r' :: (escape cs ++ '"' :: rest) := by
              simp [escape, escChar]
            rw [hesc, parseStrBody_esc 'r' '\r' (escape cs ++ '"' :: rest) (by decide), ih rest]
            rfl
          · by_cases h5 : c = '\t'
            · subst h5
              have hesc : escape ('\t' :: cs) ++ '"' :: rest
                  = '\\' :: 't' :: (escape cs ++ '"' :: rest) := by
                simp [escape, escChar]
              rw [hesc, parseStrBody_esc 't' '\t' (escape cs ++ '"' :: rest) (by decide), ih rest]
              rfl
            · have hesc : escape (c :: cs) ++ '"' :: rest = c :: (escape cs ++ '"' :: rest) := by
                simp [escape, escChar, h1, h2, h3, h4, h5]
              rw [hesc, parseStrBody_other c (escape cs ++ '"' :: rest) h1 h2, ih rest]
              rfl

/-! ## Codec lemmas: numbers -/

theorem digitChar_isDigit {d : Nat} (h : d < 10) : isDigit (digitChar d) = true := by
  interval_cases d <;> decide

theorem digitVal_digitChar {d : Nat} (h : d < 10) : digitVal (digitChar d) = d := by
  interval_cases d <;> decide

theorem natDigits_ne_nil (n : Nat) : natDigits n ≠ [] := by
  unfold natDigits
  split
  · simp
  · simp

theorem natDigits_digits : ∀ (n : Nat), ∀ c ∈ natDigits n, isDigit c = true := by
  intro n
  induction n using Nat.strong_induction_on with
  | _ n ih =>
    intro c hc
    unfold natDigits at hc
    split at hc
    · next h =>
      simp at hc
      subst hc
      exact digitChar_isDigit h
    · next h =>
      rw [List.mem_append] at hc
      rcases hc with hc | hc
      · exact ih (n / 10) (Nat.div_lt_self (by omega) (by omega)) c hc
      · simp at hc
        subst hc
        exact digitChar_isDigit (Nat.mod_lt n (by omega))

theorem digitsToNat_nil (acc : Nat) : digitsToNat acc [] = acc := rfl

theorem digitsToNat_cons (acc : Nat) (c : Char) (cs : Str) :
    digitsToNat acc (c :: cs) = digitsToNat (acc * 10 + digitVal c) cs := rfl

theorem digitsToNat_append (l1 : Str) : ∀ (l2 : Str) (acc : Nat),
    digitsToNat acc (l1 ++ l2) = digitsToNat (digitsToNat acc l1) l2 := by
  induction l1 with
  | nil => intro l2 acc; rfl
  | cons c cs ih =>
    intro l2 acc
    simp only [List.cons_append, digitsToNat_cons]
    rw [ih]

theorem digitsToNat_natDigits : ∀ (n acc : Nat),
    digitsToNat acc (natDigits n) = acc * 10 ^ (natDigits n).length + n := by
  intro n
  induction n using Nat.strong_induction_on with
  | _ n ih =>
    intro acc
    unfold natDigits
    split
    · next h =>
      rw [digitsToNat_cons, digitsToNat_nil, digitVal_digitChar h]
      simp
    · next h =>
      have hlt : n / 10 < n := Nat.div_lt_self (by omega) (by omega)
      have hmod10 : n % 10 < 10 := Nat.mod_lt n (by omega)
      rw [digitsToNat_append, ih (n / 10) hlt, digitsToNat_cons, digitsToNat_nil,
        digitVal_digitChar hmod10]
      simp only [List.length_append, List.length_cons, List.length_nil]
      have hmod : 10 * (n / 10) + n % 10 = n := Nat.div_add_mod n 10
      calc (acc * 10 ^ (natDigits (n / 10)).length + n / 10) * 10 + n % 10
          = acc * (10 ^ (natDigits (n / 10)).length * 10) + (10 * (n / 10) + n % 10) := by ring
        _ = acc * 10 ^ ((natDigits (n / 10)).length + (0 + 1)) + n := by
            rw [hmod, Nat.zero_add, pow_succ]

theorem digitsToNat_zero_natDigits (n : Nat) : digitsToNat 0 (natDigits n) = n := by
  have h := digitsToNat_natDigits n 0
  simpa using h

theorem takeDigits_append : ∀ (ds rest : Str), (∀ c ∈ ds, isDigit c = true) →
    headNonDigit rest = true → takeDigits (ds ++ rest) = (ds, rest) := by
  intro ds
  induction ds with
  | nil =>
    intro rest _ hrest
    cases rest with
    | nil => simp [takeDigits]
    | cons c cs =>
      simp only [headNonDigit, Bool.not_eq_true'] at hrest
      simp [takeDigits, hrest]
  | cons d ds' ih =>
    intro rest hds hrest
    have hd : isDigit d = true := hds d (by simp)
    have hds' : ∀ c ∈ ds', isDigit c = true := fun c hc => hds c (by simp [hc])
    simp [takeDigits, hd, ih rest hds' hrest]

theorem parseNum_neg (cs : Str) :
    parseNum ('-' :: cs) = (if (takeDigits cs).1 = [] then none
      else some (-(digitsToNat 0 (takeDigits cs).1 : Int), (takeDigits cs).2)) := by
  conv_lhs => rw [parseNum.eq_def]
  simp

theorem parseNum_nosign (c : Char) (cs : Str) (hc : c ≠ '-') :
    parseNum (c :: cs) = (if (takeDigits (c :: cs)).1 = [] then none
      else some ((digitsToNat 0 (takeDigits (c :: cs)).1 : Int), (takeDigits (c :: cs)).2)) := by
  conv_lhs => rw [parseNum.eq_def]
  simp [hc]

theorem parseNum_print : ∀ (n : Int) (rest : Str), headNonDigit rest = true →
    parseNum (intChars n ++ rest) = some (n, rest) := by
  intro n rest hrest
  by_cases hneg : n < 0
  · have htake := takeDigits_append (natDigits n.natAbs) rest (natDigits_digits n.natAbs) hrest
    have hne : natDigits n.natAbs ≠ [] := natDigits_ne_nil n.natAbs
    simp only [intChars, if_pos hneg, List.cons_append]
    rw [parseNum_neg, htake]
    simp only []
    rw [if_neg hne, digitsToNat_zero_natDigits]
    have hcast : -((n.natAbs : Nat) : Int) = n := by omega
    rw [hcast]
  · have hne := natDigits_ne_nil n.toNat
    cases hnd : natDigits n.toNat with
    | nil => exact absurd hnd hne
    | cons c l =>
      have hcdig : isDigit c = true := natDigits_digits n.toNat c (by rw [hnd]; simp)
      have hcne : c ≠ '-' := by
        intro hcc
        rw [hcc] at hcdig
        exact absurd hcdig (by decide)
      have htake := takeDigits_append (natDigits n.toNat) rest (natDigits_digits n.toNat) hrest
      rw [hnd] at htake
      simp only [List.cons_append] at htake
      simp only [intChars, if_neg hneg, hnd, List.cons_append]
      rw [parseNum_nosign c (l ++ rest) hcne, htake]
      simp only []
      rw [if_neg (by simp : ¬ (c :: l) = [])]
      rw [← hnd, digitsToNat_zero_natDigits]
      have hcast : ((n.toNat : Nat) : Int) = n := by omega
      rw [hcast]

/-! ## Codec lemmas: leading characters and fuel bounds -/

theorem isValStart_ne_rbracket {c : Char} (h : isValStart c = true) : c ≠ ']' := by
  intro hc
  subst hc
  exact absurd h (by decide)

theorem isValStart_ne_rbrace {c : Char} (h : isValStart c = true) : c ≠ '\x7d' := by
  intro hc
  subst hc
  exact absurd h (by decide)

theorem intChars_start : ∀ n : Int, ∃ c l, intChars n = c :: l ∧ (c = '-' ∨ isDigit c = true) := by
  intro n
  by_cases h : n < 0
  · exact ⟨'-', natDigits n.natAbs, by simp [intChars, h], Or.inl rfl⟩
  · cases hnd : natDigits n.toNat with
    | nil => exact absurd hnd (natDigits_ne_nil n.toNat)
    | cons c l =>
      refine ⟨c, l, by simp [intChars, h, hnd], Or.inr ?_⟩
      exact natDigits_digits n.toNat c (by rw [hnd]; simp)

theorem numStart_ne {c : Char} (hc : c = '-' ∨ isDigit c = true) :
    ∀ d ∈ ['n', 't', 'f', '"', '[', '\x7b'], c ≠ d := by
  intro d hd
  rcases hc with h | h
  · subst h
    fin_cases hd <;> decide
  · intro hcc
    rw [hcc] at h
    fin_cases hd <;> exact absurd h (by decide)

theorem printVal_start : ∀ v : JValue, ∃ c l, printVal v = c :: l ∧ isValStart c = true := by
  intro v
  cases v with
  | null => exact ⟨'n', ['u', 'l', 'l'], rfl, by decide⟩
  | bool b =>
    cases b with
    | false => exact ⟨'f', ['a', 'l', 's', 'e'], by simp [printVal], by decide⟩
    | true => exact ⟨'t', ['r', 'u', 'e'], by simp [printVal], by decide⟩
  | num n =>
    obtain ⟨c, l, hic, hcd⟩ := intChars_start n
    refine ⟨c, l, by simp only [printVal, hic], ?_⟩
    rcases hcd with h | h
    · subst h; decide
    · simp [isValStart, h]
  | str s => exact ⟨'"', escape s ++ ['"'], rfl, by decide⟩
  | arr xs =>
    cases xs with
    | nil => exact ⟨'[', [']'], rfl, by decide⟩
    | cons x xs' => exact ⟨'[', (printVal x ++ printItems xs') ++ [']'], rfl, by decide⟩
  | obj fs =>
    cases fs with
    | nil => exact ⟨'\x7b', ['\x7d'], rfl, by decide⟩
    | cons f0 fs' => exact ⟨'\x7b', (printKV f0 ++ printFields fs') ++ ['\x7d'], rfl, by decide⟩

theorem headNonDigit_items (xs : List JValue) (rest : Str) :
    headNonDigit (printItems xs ++ ']' :: rest) = true := by
  cases xs with
  | nil =>
    simp only [printItems, List.nil_append, headNonDigit]
    decide
  | cons y ys =>
    simp only [printItems, List.cons_append, headNonDigit]
    decide

theorem headNonDigit_fields (fs : List (Str × JValue)) (rest : Str) :
    headNonDigit (printFields fs ++ '\x7d' :: rest) = true := by
  cases fs with
  | nil =>
    simp only [printFields, List.nil_append, headNonDigit]
    decide
  | cons g gs =>
    simp only [printFields, List.cons_append, headNonDigit]
    decide

theorem needed_pos (v : JValue) : 1 ≤ needed v := by
  cases v with
  | null => simp only [needed]; omega
  | bool b => simp only [needed]; omega
  | num n => simp only [needed]; omega
  | str s => simp only [needed]; omega
  | arr xs =>
    cases xs with
    | nil => simp only [needed]; omega
    | cons x xs' => simp only [needed]; omega
  | obj fs =>
    cases fs with
    | nil => simp only [needed]; omega
    | cons f0 fs' => simp only [needed]; omega

theorem neededItems_pos (x : JValue) (xs : List JValue) : 1 ≤ neededItems x xs := by
  cases xs with
  | nil => simp only [neededItems]; omega
  | cons y ys => simp only [neededItems]; omega

theorem neededFields_pos (f : Str × JValue) (fs : List (Str × JValue)) : 1 ≤ neededFields f fs := by
  obtain ⟨k, v⟩ := f
  cases fs with
  | nil => simp only [neededFields]; omega
  | cons g gs => simp only [neededFields]; omega

/-- Core inversion lemma of the codec: with sufficient fuel, parsing
the serialization of a value (followed by anything that does not start
with a digit) returns exactly that value with the tail untouched — and
likewise for array elements and object members. Proved by induction on
the fuel, which dominates the structural size of the value. -/
theorem parse_print_all : ∀ fuel : Nat,
    (∀ (v : JValue) (rest : Str), needed v ≤ fuel → headNonDigit rest = true →
        parseVal fuel (printVal v ++ rest) = some (v, rest))
    ∧ (∀ (x : JValue) (xs : List JValue) (rest : Str),
        neededItems x xs ≤ fuel → headNonDigit rest = true →
        parseItems fuel (printVal x ++ (printItems xs ++ ']' :: rest)) = some (x :: xs, rest))
    ∧ (∀ (k : Str) (v : JValue) (fs : List (Str × JValue)) (rest : Str),
        neededFields (k, v) fs ≤ fuel → headNonDigit rest = true →
        parseFields fuel (printKV (k, v) ++ (printFields fs ++ '\x7d' :: rest))
          = some ((k, v) :: fs, rest)) := by
  intro fuel
  induction fuel with
  | zero =>
    refine ⟨?_, ?_, ?_⟩
    · intro v rest hf _
      exact absurd hf (by have := needed_pos v; omega)
    · intro x xs rest hf _
      exact absurd hf (by have := neededItems_pos x xs; omega)
    · intro k v fs rest hf _
      exact absurd hf (by have := neededFields_pos (k, v) fs; omega)
  | succ f ih =>
    obtain ⟨ihV, ihI, ihF⟩ := ih
    refine ⟨?_, ?_, ?_⟩
    · intro v rest hf hrest
      cases v with
      | null =>
        simp only [printVal, List.cons_append]
        conv_lhs => rw [parseVal.eq_def]
        simp [dropLit]
      | bool b =>
        cases b with
        | false =>
          have hb : printVal (JValue.bool false) = ['f', 'a', 'l', 's', 'e'] := by
            simp [printVal]
          rw [hb]
          simp only [List.cons_append]
          conv_lhs => rw [parseVal.eq_def]
          simp [dropLit]
        | true =>
          have hb : printVal (JValue.bool true) = ['t', 'r', 'u', 'e'] := by
            simp [printVal]
          rw [hb]
          simp only [List.cons_append]
          conv_lhs => rw [parseVal.eq_def]
          simp [dropLit]
      | num n =>
        obtain ⟨c, l, hic, hcd⟩ := intChars_start n
        have hne := numStart_ne hcd
        have h1 : c ≠ 'n' := hne 'n' (by decide)
        have h2 : c ≠ 't' := hne 't' (by decide)
        have h3 : c ≠ 'f' := hne 'f' (by decide)
        have h4 : c ≠ '"' := hne '"' (by decide)
        have h5 : c ≠ '[' := hne '[' (by decide)
        have h6 : c ≠ '\x7b' := hne '\x7b' (by decide)
        have h7 : (c = '-' || isDigit c) = true := by
          rcases hcd with h | h
          · simp [h]
          · simp [h]
        have hpn : parseNum (c :: (l ++ rest)) = some (n, rest) := by
          have hx : c :: (l ++ rest) = intChars n ++ rest := by rw [hic]; rfl
          rw [hx]
          exact parseNum_print n rest hrest
        simp only [printVal, hic, List.cons_append]
        conv_lhs => rw [parseVal.eq_def]
        simp only [if_neg h1, if_neg h2, if_neg h3, if_neg h4, if_neg h5, if_neg h6,
          if_pos h7, hpn]
        simp
      | str s =>
        simp only [printVal, List.cons_append, List.append_assoc, List.singleton_append,
            List.nil_append]
        conv_lhs => rw [parseVal.eq_def]
        simp [parseStrBody_escape s rest]
      | arr xs =>
        cases xs with
        | nil =>
          simp only [printVal, List.cons_append]
          conv_lhs => rw [parseVal.eq_def]
          simp
        | cons x xs' =>
          obtain ⟨c, l, hpv, hstart⟩ := printVal_start x
          have hcne : c ≠ ']' := isValStart_ne_rbracket hstart
          have hfi : neededItems x xs' ≤ f := by
            simp only [needed] at hf
            omega
          have hitems := ihI x xs' rest hfi hrest
          have hitems2 : parseItems f (c :: (l ++ (printItems xs' ++ ']' :: rest)))
              = some (x :: xs', rest) := by
            have hx : c :: (l ++ (printItems xs' ++ ']' :: rest))
                = printVal x ++ (printItems xs' ++ ']' :: rest) := by rw [hpv]; rfl
            rw [hx]
            exact hitems
          simp only [printVal, List.cons_append, List.append_assoc, List.singleton_append,
            List.nil_append]
          rw [hpv]
          simp only [List.cons_append]
          conv_lhs => rw [parseVal.eq_def]
          simp only [if_neg hcne, hitems2]
          simp
      | obj fs =>
        cases fs with
        | nil =>
          simp only [printVal, List.cons_append]
          conv_lhs => rw [parseVal.eq_def]
          simp
        | cons f0 fs' =>
          obtain ⟨k, v0⟩ := f0
          have hff : neededFields (k, v0) fs' ≤ f := by
            simp only [needed] at hf
            omega
          have hfields := ihF k v0 fs' rest hff hrest
          have hfields2 : parseFields f
              ('"' :: (escape k ++ ('"' :: ':' :: (printVal v0 ++ (printFields fs' ++ '\x7d' :: rest)))))
              = some ((k, v0) :: fs', rest) := by
            have hx : '"' :: (escape k ++ ('"' :: ':' :: (printVal v0 ++ (printFields fs' ++ '\x7d' :: rest))))
                = printKV (k, v0) ++ (printFields fs' ++ '\x7d' :: rest) := by
              simp only [printKV, List.cons_append, List.append_assoc]
            rw [hx]
            exact hfields
          simp only [printVal, printKV, List.cons_append, List.append_assoc,
            List.singleton_append, List.nil_append]
          conv_lhs => rw [parseVal.eq_def]
          simp only [if_neg (by decide : ¬ ('"' : Char) = '\x7d'), hfields2]
          simp
    · intro x xs rest hf hrest
      have hx : needed x ≤ f := by
        cases xs with
        | nil => simp only [neededItems] at hf; omega
        | cons y ys => simp only [neededItems] at hf; omega
      have hval := ihV x (printItems xs ++ ']' :: rest) hx (headNonDigit_items xs rest)
      conv_lhs => rw [parseItems.eq_def]
      simp only [hval]
      cases xs with
      | nil =>
        simp only [printItems, List.nil_append]
        simp
      | cons y ys =>
        have hyys : neededItems y ys ≤ f := by
          simp only [neededItems] at hf
          omega
        have hitems := ihI y ys rest hyys hrest
        simp only [printItems, List.cons_append, List.append_assoc, List.nil_append,
          List.singleton_append]
        simp only [hitems]
        simp
    · intro k v fs rest hf hrest
      have hv : needed v ≤ f := by
        cases fs with
        | nil => simp only [neededFields] at hf; omega
        | cons g gs => simp only [neededFields] at hf; omega
      have hval := ihV v (printFields fs ++ '\x7d' :: rest) hv (headNonDigit_fields fs rest)
      simp only [printKV, List.cons_append, List.append_assoc, List.nil_append,
        List.singleton_append]
      conv_lhs => rw [parseFields.eq_def]
      simp only [parseStrBody_escape, hval]
      cases fs with
      | nil =>
        simp only [printFields, List.nil_append]
        simp
      | cons g gs =>
        obtain ⟨k2, v2⟩ := g
        have hgs : neededFields (k2, v2) gs ≤ f := by
          simp only [neededFields] at hf
          omega
        have hfields := ihF k2 v2 gs rest hgs hrest
        have hfields2 : parseFields f
            ('"' :: (escape k2 ++ ('"' :: ':' :: (printVal v2 ++ (printFields gs ++ '\x7d' :: rest)))))
            = some ((k2, v2) :: gs, rest) := by
          have hx : '"' :: (escape k2 ++ ('"' :: ':' :: (printVal v2 ++ (printFields gs ++ '\x7d' :: rest))))
              = printKV (k2, v2) ++ (printFields gs ++ '\x7d' :: rest) := by
            simp only [printKV, List.cons_append, List.append_assoc]
          rw [hx]
          exact hfields
        simp only [printFields, printKV, List.cons_append, List.append_assoc,
          List.nil_append, List.singleton_append]
        simp only [hfields2]
        simp

/-! ## Codec lemmas: the single-line invariant and fuel sufficiency -/

theorem JValue_sizeOf_pos (v : JValue) : 1 ≤ sizeOf v := by
  cases v <;> simp_arith

theorem list_sizeOf_pos {α : Type} [SizeOf α] (xs : List α) : 1 ≤ sizeOf xs := by
  cases xs <;> simp_arith

theorem escChar_no_newline (c : Char) : '\n' ∉ escChar c := by
  by_cases h1 : c = '"'
  · subst h1; decide
  · by_cases h2 : c = '\\'
    · subst h2; decide
    · by_cases h3 : c = '\n'
      · subst h3; decide
      · by_cases h4 : c = '\r'
        · subst h4; decide
        · by_cases h5 : c = '\t'
          · subst h5; decide
          · simp only [escChar, if_neg h1, if_neg h2, if_neg h3, if_neg h4, if_neg h5]
            intro hmem
            rcases List.mem_singleton.mp hmem with h
            exact h3 h.symm

theorem escape_no_newline : ∀ s : Str, '\n' ∉ escape s := by
  intro s
  induction s with
  | nil => simp [escape]
  | cons c cs ih =>
    simp only [escape]
    intro hmem
    rcases List.mem_append.mp hmem with h | h
    · exact escChar_no_newline c h
    · exact ih h

theorem natDigits_no_newline (n : Nat) : '\n' ∉ natDigits n := by
  intro hmem
  exact absurd (natDigits_digits n '\n' hmem) (by decide)

theorem intChars_no_newline (n : Int) : '\n' ∉ intChars n := by
  unfold intChars
  split
  · intro hmem
    rcases List.mem_cons.mp hmem with h | h
    · exact absurd h (by decide)
    · exact natDigits_no_newline _ h
  · exact natDigits_no_newline _

/-- Serialized values, array elements, object members and member lists
contain no newline character: the codec's single-line invariant. -/
theorem no_newline_all : ∀ kk : Nat,
    (∀ v : JValue, sizeOf v ≤ kk → '\n' ∉ printVal v)
    ∧ (∀ xs : List JValue, sizeOf xs ≤ kk → '\n' ∉ printItems xs)
    ∧ (∀ f : Str × JValue, sizeOf f ≤ kk → '\n' ∉ printKV f)
    ∧ (∀ fs : List (Str × JValue), sizeOf fs ≤ kk → '\n' ∉ printFields fs) := by
  intro kk
  induction kk with
  | zero =>
    refine ⟨?_, ?_, ?_, ?_⟩
    · intro v hsz
      exact absurd hsz (by have := JValue_sizeOf_pos v; omega)
    · intro xs hsz
      exact absurd hsz (by have := list_sizeOf_pos xs; omega)
    · intro f hsz
      obtain ⟨k0, v0⟩ := f
      exact absurd hsz (by have := JValue_sizeOf_pos v0; simp_arith)
    · intro fs hsz
      exact absurd hsz (by have := list_sizeOf_pos fs; omega)
  | succ k ih =>
    obtain ⟨ihV, ihI, ihKV, ihF⟩ := ih
    refine ⟨?_, ?_, ?_, ?_⟩
    · intro v hsz
      cases v with
      | null => simp only [printVal]; decide
      | bool b =>
        cases b with
        | false => simp only [printVal]; decide
        | true => simp only [printVal]; decide
      | num n =>
        simp only [printVal]
        exact intChars_no_newline n
      | str s =>
        simp only [printVal]
        intro hmem
        rcases List.mem_cons.mp hmem with h | h
        · exact absurd h (by decide)
        · rcases List.mem_append.mp h with h2 | h2
          · exact escape_no_newline s h2
          · exact absurd (List.mem_singleton.mp h2) (by decide)
      | arr xs =>
        cases xs with
        | nil => simp only [printVal]; decide
        | cons x xs' =>
          have hx : sizeOf x ≤ k := by
            simp only [JValue.arr.sizeOf_spec, List.cons.sizeOf_spec] at hsz
            have := list_sizeOf_pos xs'
            omega
          have hxs : sizeOf xs' ≤ k := by
            simp only [JValue.arr.sizeOf_spec, List.cons.sizeOf_spec] at hsz
            have := JValue_sizeOf_pos x
            omega
          simp only [printVal]
          intro hmem
          rcases List.mem_cons.mp hmem with h | h
          · exact absurd h (by decide)
          · rcases List.mem_append.mp h with h2 | h2
            · rcases List.mem_append.mp h2 with h3 | h3
              · exact ihV x hx h3
              · exact ihI xs' hxs h3
            · exact absurd (List.mem_singleton.mp h2) (by decide)
      | obj fs =>
        cases fs with
        | nil => simp only [printVal]; decide
        | cons f0 fs' =>
          have hf0 : sizeOf f0 ≤ k := by
            simp only [JValue.obj.sizeOf_spec, List.cons.sizeOf_spec] at hsz
            have := list_sizeOf_pos fs'
            omega
          have hfs : sizeOf fs' ≤ k := by
            simp only [JValue.obj.sizeOf_spec, List.cons.sizeOf_spec] at hsz
            obtain ⟨k0, v0⟩ := f0
            have := JValue_sizeOf_pos v0
            simp only [Prod.mk.sizeOf_spec] at hsz
            omega
          simp only [printVal]
          intro hmem
          rcases List.mem_cons.mp hmem with h | h
          · exact absurd h (by decide)
          · rcases List.mem_append.mp h with h2 | h2
            · rcases List.mem_append.mp h2 with h3 | h3
              · exact ihKV f0 hf0 h3
              · exact ihF fs' hfs h3
            · exact absurd (List.mem_singleton.mp h2) (by decide)
    · intro xs hsz
      cases xs with
      | nil => simp only [printItems]; simp
      | cons y ys =>
        have hy : sizeOf y ≤ k := by
          simp only [List.cons.sizeOf_spec] at hsz
          have := list_sizeOf_pos ys
          omega
        have hys : sizeOf ys ≤ k := by
          simp only [List.cons.sizeOf_spec] at hsz
          have := JValue_sizeOf_pos y
          omega
        simp only [printItems]
        intro hmem
        rcases List.mem_cons.mp hmem with h | h
        · exact absurd h (by decide)
        · rcases List.mem_append.mp h with h2 | h2
          · exact ihV y hy h2
          · exact ihI ys hys h2
    · intro f0 hsz
      obtain ⟨k0, v0⟩ := f0
      have hv : sizeOf v0 ≤ k := by
        simp only [Prod.mk.sizeOf_spec] at hsz
        have := list_sizeOf_pos k0
        omega
      simp only [printKV]
      intro hmem
      rcases List.mem_cons.mp hmem with h | h
      · exact absurd h (by decide)
      · rcases List.mem_append.mp h with h2 | h2
        · exact escape_no_newline k0 h2
        · rcases List.mem_cons.mp h2 with h3 | h3
          · exact absurd h3 (by decide)
          · rcases List.mem_cons.mp h3 with h4 | h4
            · exact absurd h4 (by decide)
            · exact ihV v0 hv h4
    · intro fs hsz
      cases fs with
      | nil => simp only [printFields]; simp
      | cons g gs =>
        have hg : sizeOf g ≤ k := by
          simp only [List.cons.sizeOf_spec] at hsz
          have := list_sizeOf_pos gs
          omega
        have hgs : sizeOf gs ≤ k := by
          obtain ⟨k2, v2⟩ := g
          simp only [List.cons.sizeOf_spec, Prod.mk.sizeOf_spec] at hsz
          have := JValue_sizeOf_pos v2
          omega
        simp only [printFields]
        intro hmem
        rcases List.mem_cons.mp hmem with h | h
        · exact absurd h (by decide)
        · rcases List.mem_append.mp h with h2 | h2
          · exact ihKV g hg h2
          · exact ihF gs hgs h2

theorem intChars_ne_nil (n : Int) : intChars n ≠ [] := by
  obtain ⟨c, l, hic, _⟩ := intChars_start n
  rw [hic]
  simp

theorem printKV_length (s : Str) (v : JValue) :
    (printKV (s, v)).length = (escape s).length + (printVal v).length + 3 := by
  simp only [printKV, List.length_cons, List.length_append]
  omega

/-- The fuel bound `needed` is dominated by the serialized length, so a
parser given one more unit of fuel than the line length always has
enough. -/
theorem needed_le_all : ∀ kk : Nat,
    (∀ v : JValue, sizeOf v ≤ kk → needed v ≤ (printVal v).length)
    ∧ (∀ (x : JValue) (xs : List JValue), sizeOf x + sizeOf xs ≤ kk →
        neededItems x xs ≤ (printVal x).length + (printItems xs).length + 1)
    ∧ (∀ (s : Str) (v : JValue) (fs : List (Str × JValue)), sizeOf v + sizeOf fs ≤ kk →
        neededFields (s, v) fs ≤ (printKV (s, v)).length + (printFields fs).length + 1) := by
  intro kk
  induction kk with
  | zero =>
    refine ⟨?_, ?_, ?_⟩
    · intro v hsz
      exact absurd hsz (by have := JValue_sizeOf_pos v; omega)
    · intro x xs hsz
      exact absurd hsz (by have := JValue_sizeOf_pos x; omega)
    · intro s v fs hsz
      exact absurd hsz (by have := JValue_sizeOf_pos v; omega)
  | succ k ih =>
    obtain ⟨ihV, ihI, ihF⟩ := ih
    refine ⟨?_, ?_, ?_⟩
    · intro v hsz
      cases v with
      | null => simp [needed, printVal]
      | bool b => cases b <;> simp [needed, printVal]
      | num n =>
        have := List.length_pos.mpr (intChars_ne_nil n)
        simp only [needed, printVal]
        omega
      | str s =>
        simp only [needed, printVal, List.length_cons, List.length_append]
        omega
      | arr xs =>
        cases xs with
        | nil => simp [needed, printVal]
        | cons x xs' =>
          have hsz' : sizeOf x + sizeOf xs' ≤ k := by
            simp only [JValue.arr.sizeOf_spec, List.cons.sizeOf_spec] at hsz
            omega
          have hi := ihI x xs' hsz'
          simp only [needed, printVal, List.length_cons, List.length_append, List.length_nil]
          omega
      | obj fs =>
        cases fs with
        | nil => simp [needed, printVal]
        | cons f0 fs' =>
          obtain ⟨k0, v0⟩ := f0
          have hsz' : sizeOf v0 + sizeOf fs' ≤ k := by
            simp only [JValue.obj.sizeOf_spec, List.cons.sizeOf_spec, Prod.mk.sizeOf_spec] at hsz
            omega
          have hi := ihF k0 v0 fs' hsz'
          simp only [needed, printVal, List.length_cons, List.length_append, List.length_nil]
          omega
    · intro x xs hsz
      cases xs with
      | nil =>
        have hx : sizeOf x ≤ k := by
          simp only [List.nil.sizeOf_spec] at hsz
          omega
        have h1 := ihV x hx
        simp only [neededItems, printItems, List.length_nil]
        omega
      | cons y ys =>
        have hy1 : 1 ≤ sizeOf y := JValue_sizeOf_pos y
        have hx1 : 1 ≤ sizeOf x := JValue_sizeOf_pos x
        simp only [List.cons.sizeOf_spec] at hsz
        have hx : sizeOf x ≤ k := by omega
        have hys : sizeOf y + sizeOf ys ≤ k := by omega
        have h1 := ihV x hx
        have h2 := ihI y ys hys
        simp only [neededItems, printItems, List.length_cons, List.length_append]
        omega
    · intro s v fs hsz
      cases fs with
      | nil =>
        have hv : sizeOf v ≤ k := by
          simp only [List.nil.sizeOf_spec] at hsz
          omega
        have h1 := ihV v hv
        simp only [neededFields, printFields, List.length_nil]
        rw [printKV_length]
        omega
      | cons g gs =>
        obtain ⟨k2, v2⟩ := g
        have hv1 : 1 ≤ sizeOf v := JValue_sizeOf_pos v
        have hv21 : 1 ≤ sizeOf v2 := JValue_sizeOf_pos v2
        simp only [List.cons.sizeOf_spec, Prod.mk.sizeOf_spec] at hsz
        have hv : sizeOf v ≤ k := by omega
        have hgs : sizeOf v2 + sizeOf gs ≤ k := by omega
        have h1 := ihV v hv
        have h2 := ihF k2 v2 gs hgs
        rw [printKV_length] at h2
        simp only [neededFields, printFields, List.length_cons, List.length_append]
        rw [printKV_length, printKV_length]
        omega

theorem stripNewline_concat (l : Str) : stripNewline (l ++ ['\n']) = l := by
  simp [stripNewline]

/-! ## Claim theorem: codec round trip -/

/-- C7: for every valid message `m`, decoding the bytes produced by
encoding `m` yields `m` again, and the encoding is a single line — it
contains exactly one newline character, at the very end. (Modelled from
the spec: the compiled sources contain no codec; messages are JSON
values with integer-valued numbers, so no unencodable value exists.) -/
theorem decode_encode_roundtrip (m : JValue) :
    decode (encode m) = Except.ok m
    ∧ (encode m).count '\n' = 1
    ∧ (encode m).getLast? = some '\n' := by
  have hnn : '\n' ∉ printVal m := (no_newline_all (sizeOf m)).1 m le_rfl
  have hfuel : needed m ≤ (printVal m).length := (needed_le_all (sizeOf m)).1 m le_rfl
  have hparse := (parse_print_all ((printVal m).length + 1)).1 m [] (by omega) (by rfl)
  rw [List.append_nil] at hparse
  refine ⟨?_, ?_, ?_⟩
  · simp only [decode, encode, stripNewline_concat]
    rw [hparse]
  · simp only [encode, List.count_append]
    rw [List.count_eq_zero.mpr hnn]
    simp
  · simp [encode]

/-! ## Pending requests and timeouts (Modelled from the spec)

The compiled sources contain no correlation table — the transport
bridge is a stub — so the Pending Request lifecycle of specification
sections 3 and 4.4 is modelled here from the specification's words. -/

/-- Modelled from the spec: the lifecycle state of the subprocess
handle. -/
inductive ProcState where
  | starting : ProcState
  | running : ProcState
  | exited : ProcState
  | failed : ProcState
deriving DecidableEq

/-- Modelled from the spec: a Pending Request — a request sent to the
subprocess awaiting a correlated response, keyed by its correlation
identifier, with its submission time and deadline. -/
structure PendingRequest where
  correlationId : Nat
  submittedAt : Nat
  deadline : Nat
deriving DecidableEq

/-- Modelled from the spec: the outcome delivered to a waiting caller —
a correlated response, a `TimeoutError`, or a `SubprocessDiedError`. -/
inductive Outcome where
  | response : Nat → JValue → Outcome
  | timeoutError : Nat → Outcome
  | subprocessDiedError : Nat → Outcome

/-- Modelled from the spec: the bridge's shared state — the correlation
table of Pending Requests and the subprocess lifecycle state. -/
structure BridgeState where
  table : List PendingRequest
  proc : ProcState

/-- Modelled from the spec: forwarding a request to the subprocess
creates a Pending Request in the correlation table. -/
def submitRequest (st : BridgeState) (pr : PendingRequest) : BridgeState :=
  { st with table := pr :: st.table }

/-- Remove every table entry with the given correlation identifier. -/
def removeId (cid : Nat) (t : List PendingRequest) : List PendingRequest :=
  t.filter (fun pr => pr.correlationId != cid)

/-- Modelled from the spec: one `handleRequest` cycle — the message is
forwarded and a Pending Request is created; if a matching response
arrives by the deadline the request resolves to it, otherwise it
resolves to `TimeoutError`; in both cases the entry is evicted from the
correlation table, and the subprocess is not touched (only explicit
process death triggers cleanup). -/
def handleRequest (st : BridgeState) (pr : PendingRequest)
    (response : Option JValue) : BridgeState × Outcome :=
  let st1 := submitRequest st pr
  match response with
  | some payload =>
    ({ st1 with table := removeId pr.correlationId st1.table },
     Outcome.response pr.correlationId payload)
  | none =>
    ({ st1 with table := removeId pr.correlationId st1.table },
     Outcome.timeoutError pr.correlationId)

theorem removeId_fresh (cid : Nat) (t : List PendingRequest)
    (hfresh : ∀ q ∈ t, q.correlationId ≠ cid) : removeId cid t = t := by
  simp only [removeId]
  exact List.filter_eq_self.mpr (fun q hq => by simpa using hfresh q hq)

/-! ## Claim theorem: timeout eviction -/

/-- C8: a Pending Request with no matching response by its deadline
resolves to `TimeoutError` and is evicted from the correlation table —
the table returns exactly to its baseline contents (and size), so
nothing leaks — while the subprocess state is left untouched: a timeout
on one request never terminates the process. -/
theorem timeout_evicts_and_keeps_process (st : BridgeState) (pr : PendingRequest)
    (hfresh : ∀ q ∈ st.table, q.correlationId ≠ pr.correlationId) :
    (handleRequest st pr none).2 = Outcome.timeoutError pr.correlationId
    ∧ (handleRequest st pr none).1.table = st.table
    ∧ (handleRequest st pr none).1.table.length = st.table.length
    ∧ (handleRequest st pr none).1.proc = st.proc := by
  have htab : (handleRequest st pr none).1.table = st.table := by
    show removeId pr.correlationId (pr :: st.table) = st.table
    have h1 : removeId pr.correlationId (pr :: st.table)
        = removeId pr.correlationId st.table := by
      simp [removeId, List.filter_cons]
    rw [h1]
    exact removeId_fresh pr.correlationId st.table hfresh
  exact ⟨rfl, htab, by rw [htab], rfl⟩

/-- Witness for C8 at a concrete input: a state holding one other
pending request with a running subprocess; the timed-out request is
evicted, the table returns to its one-entry baseline, and the process
stays `running`. -/
theorem timeout_evicts_and_keeps_process_witness :
    (handleRequest
        { table := [{ correlationId := 3, submittedAt := 0, deadline := 50 }],
          proc := ProcState.running }
        { correlationId := 7, submittedAt := 10, deadline := 40 } none).2
      = Outcome.timeoutError 7
    ∧ (handleRequest
        { table := [{ correlationId := 3, submittedAt := 0, deadline := 50 }],
          proc := ProcState.running }
        { correlationId := 7, submittedAt := 10, deadline := 40 } none).1.table
      = [{ correlationId := 3, submittedAt := 0, deadline := 50 }]
    ∧ (handleRequest
        { table := [{ correlationId := 3, submittedAt := 0, deadline := 50 }],
          proc := ProcState.running }
        { correlationId := 7, submittedAt := 10, deadline := 40 } none).1.proc
      = ProcState.running :=
  have h := timeout_evicts_and_keeps_process
    { table := [{ correlationId := 3, submittedAt := 0, deadline := 50 }],
      proc := ProcState.running }
    { correlationId := 7, submittedAt := 10, deadline := 40 }
    (by decide)
  ⟨h.1, h.2.1, h.2.2.2⟩

end PortainerWrapper
